import Mathlib

/-!
Verification of the streaming AES-CTR transform of `openssl-aes-ctr-stream`
(`src/index.ts`).  Byte sequences are modelled as `List Nat` (each element a
byte, `< 256` where it matters), streams of chunks as `List (List Nat)`, and
the two external cryptographic primitives (the AES block cipher inside the
provider's AES-CTR operation, and PBKDF2) as abstract function parameters.
The pull-driven state machines of `aesCtrEncrypt` / `aesCtrDecrypt` are
embedded as explicit state-passing functions.
-/

namespace AesCtrStream

/-- `blockByteSize` from the source: the AES block size in bytes. -/
def blockByteSize : Nat := 16

/-- The little-endian carry loop underlying `incrementCounter`: the source
walks the `Uint8Array` from its last byte backwards, incrementing modulo 256
(`counter[i]++` on a byte array) and continuing to the previous byte exactly
when the incremented byte wrapped to 0.  Here the list is the counter
reversed, so the loop runs down the list from its head. -/
def incrementCounterLE : List Nat → List Nat
  | [] => []
  | b :: bs =>
    if (b + 1) % 256 = 0 then 0 :: incrementCounterLE bs
    else ((b + 1) % 256) :: bs

/-- `incrementCounter` from the source, as a pure function: increment the
byte list interpreted as a big-endian integer, with carry propagating from
the last byte backwards and the whole value wrapping past all-`0xFF` to
all-zero. -/
def incrementCounter (counter : List Nat) : List Nat :=
  (incrementCounterLE counter.reverse).reverse

/-- Value of a byte list read as a little-endian integer (head is least
significant). -/
def toNatLE : List Nat → Nat
  | [] => 0
  | b :: bs => b + 256 * toNatLE bs

/-- Value of a byte list read as a big-endian integer (head is most
significant), the interpretation used for the 16-byte CTR counter. -/
def toNatBE (l : List Nat) : Nat :=
  toNatLE l.reverse

/-- State of the `ReadableStreamSizedReader` chunk reassembler wrapped around
the upstream chunk list.  Modelled from the spec: the reader keeps a byte
backlog (`buf`, the retained remainder of the last oversized chunk) in front
of the not-yet-pulled upstream chunks. -/
structure SizedReaderState where
  buf : List Nat
  chunks : List (List Nat)
deriving DecidableEq

/-- All bytes still deliverable by the reassembler, in order. -/
def flatOf (r : SizedReaderState) : List Nat :=
  r.buf ++ r.chunks.flatten

/-- Modelled from the spec: `reader.read(n, false)` of the external
`readable-stream-sized-reader` package (`readUpTo` in the spec) returns
between 1 and `n` of the next bytes — the buffered backlog if any, otherwise
it pulls the next upstream chunk — splitting oversized data and retaining the
remainder; it reports done only when the source is exhausted with nothing
buffered. -/
def readUpTo (n : Nat) : List Nat → List (List Nat) → Option (List Nat) × SizedReaderState
  | [], [] => (none, ⟨[], []⟩)
  | [], c :: cs => readUpTo n c cs
  | b :: bs, cs => (some ((b :: bs).take n), ⟨(b :: bs).drop n, cs⟩)

/-- Modelled from the spec: the gathering loop of `reader.read(n)` (exact
mode, `readExact` in the spec): accumulate bytes from the backlog and then
whole upstream chunks until `n` bytes are available (returning exactly `n`
and retaining the remainder) or the source is exhausted (returning the short
accumulation, or done when nothing at all was available). -/
def readExactAux (n : Nat) : List Nat → List Nat → List (List Nat) → Option (List Nat) × SizedReaderState
  | acc, buf, cs =>
    if n ≤ acc.length + buf.length then
      (some (acc ++ buf.take (n - acc.length)), ⟨buf.drop (n - acc.length), cs⟩)
    else
      match cs with
      | [] => (if acc ++ buf = [] then none else some (acc ++ buf), ⟨[], []⟩)
      | c :: cs' => readExactAux n (acc ++ buf) c cs'

/-- Modelled from the spec: `reader.read(n)` in exact mode. -/
def readExact (n : Nat) (r : SizedReaderState) : Option (List Nat) × SizedReaderState :=
  readExactAux n [] r.buf r.chunks

/-- JS `dst.set(src, off)` on a `Uint8Array`: overwrite `src.length` bytes of
`dst` starting at index `off`, leaving the rest unchanged. -/
def setAt (dst src : List Nat) (off : Nat) : List Nat :=
  dst.take off ++ src ++ dst.drop (off + src.length)

/-- Modelled from the spec: the external provider call
`crypto.subtle.encrypt/decrypt({name: "AES-CTR", counter, length: 128}, key, data)`
on one 16-byte block XORs the data with the keystream block produced by the
AES block cipher applied to the counter (the identical operation for encrypt
and decrypt, CTR being XOR-symmetric).  The keyed AES block cipher is the
abstract parameter `F`. -/
def ctrBlockOp (F : List Nat → List Nat) (counter data : List Nat) : List Nat :=
  List.zipWith (· ^^^ ·) data (F counter)

/-- Mutable state of one `aesCtrEncrypt` / `aesCtrDecrypt` transform:
`restByteSize` (bytes still missing from the current block), the 16-byte
block window `block`, the window offset `blockOffset`, and the counter. -/
structure CtrState where
  restByteSize : Nat
  block : List Nat
  blockOffset : Nat
  counter : List Nat

/-- The body of one `pull` callback of `aesCtrEncrypt` / `aesCtrDecrypt`
after a successful read of `v` bytes: write `v` into the block window at the
current offset, cipher the full window under the current counter, emit the
slice `[blockOffset, blockOffset + v.length)`, and on block completion
(`restByteSize` reaching 0) increment the counter and reset the window. -/
def ctrPull (F : List Nat → List Nat) (st : CtrState) (v : List Nat) :
    List Nat × CtrState :=
  let rest := st.restByteSize - v.length
  let block := setAt st.block v st.blockOffset
  let enc := ctrBlockOp F st.counter block
  let out := (enc.drop st.blockOffset).take v.length
  if rest = 0 then
    (out, ⟨blockByteSize, block, 0, incrementCounter st.counter⟩)
  else
    (out, ⟨rest, block, st.blockOffset + v.length, st.counter⟩)

/-- The pull loop of `aesCtrEncrypt` / `aesCtrDecrypt`: repeatedly read up to
`restByteSize` bytes from the reassembler and run the pull body, closing when
the reassembler reports done.  `fuel` bounds the number of pulls; every
successful read consumes at least one byte, so any fuel exceeding the total
input length reproduces the full run. -/
def ctrRun (F : List Nat → List Nat) : Nat → CtrState → SizedReaderState → List (List Nat)
  | 0, _, _ => []
  | fuel + 1, st, r =>
    match readUpTo st.restByteSize r.buf r.chunks with
    | (none, _) => []
    | (some v, r') =>
      let p := ctrPull F st v
      p.1 :: ctrRun F fuel p.2 r'

/-- Initial transform state: a fresh rest count of one block, a zeroed block
window, offset 0, and the counter initialised from a copy of the iv. -/
def initCtrState (iv : List Nat) : CtrState :=
  ⟨blockByteSize, List.replicate blockByteSize 0, 0, iv⟩

/-- `aesCtrEncrypt` from the source, with the AES block cipher abstract
(`AES key counter` is the 16-byte keystream block): transform the upstream
chunk list into the emitted ciphertext chunk list. -/
def aesCtrEncrypt (AES : List Nat → List Nat → List Nat) (key iv : List Nat)
    (chunks : List (List Nat)) : List (List Nat) :=
  ctrRun (AES key) (chunks.flatten.length + 1) (initCtrState iv) ⟨[], chunks⟩

/-- `aesCtrDecrypt` from the source: the identical pull loop as
`aesCtrEncrypt` (the provider's AES-CTR decrypt is the same XOR operation). -/
def aesCtrDecrypt (AES : List Nat → List Nat → List Nat) (key iv : List Nat)
    (chunks : List (List Nat)) : List (List Nat) :=
  ctrRun (AES key) (chunks.flatten.length + 1) (initCtrState iv) ⟨[], chunks⟩

/-- Reference keystream: `b` consecutive 16-byte keystream blocks starting
at counter `c`, the counter incremented once per block. -/
def ksBlocks (F : List Nat → List Nat) : List Nat → Nat → List Nat
  | _, 0 => []
  | c, b + 1 => F c ++ ksBlocks F (incrementCounter c) b

/-- Reference one-shot CTR transform: XOR the whole payload with the
keystream generated from the initial counter. -/
def ctrRef (F : List Nat → List Nat) (iv P : List Nat) : List Nat :=
  List.zipWith (· ^^^ ·) P (ksBlocks F iv (P.length / 16 + 1))

/-- The ASCII bytes of the `"Salted__"` magic written by
`new TextEncoder().encode('Salted__')`. -/
def magicBytes : List Nat :=
  [83, 97, 108, 116, 101, 100, 95, 95]

/-- The `pbkdf2Options` record of the source (`keyBits`, `iterations`,
`hash`), with the hash algorithm identifier kept opaque as a string. -/
structure Pbkdf2Options where
  keyBits : Nat
  iterations : Nat
  hash : String
deriving DecidableEq

/-- `deriveKeyAndIvByPbkdf2` from the source.  The PBKDF2 primitive is the
abstract parameter `kdf password salt iterations hash nBits` (returning
`nBits / 8` bytes); the source requests `keyBits + 128` bits in one
derivation and splits them at byte `keyBits / 8` into the key and the
16-byte iv.  The TypeScript signature constrains `keyBits` to the union
type `128 | 256`, so any other value is rejected before the function can
run; that static rejection is modelled as the `none` branch. -/
def deriveKeyAndIvByPbkdf2
    (kdf : String → List Nat → Nat → String → Nat → List Nat)
    (salt : List Nat) (password : String) (opts : Pbkdf2Options) :
    Option (List Nat × List Nat) :=
  if opts.keyBits = 128 ∨ opts.keyBits = 256 then
    some ((kdf password salt opts.iterations opts.hash (opts.keyBits + 128)).take (opts.keyBits / 8),
      (kdf password salt opts.iterations opts.hash (opts.keyBits + 128)).drop (opts.keyBits / 8))
  else
    none

/-- `aesCtrEncryptWithPbkdf2` from the source: enqueue the 16-byte
`Salted__` + salt header in `start`, then stream the chunks of
`aesCtrEncrypt` under the derived key and iv.  The 8 random salt bytes from
`crypto.getRandomValues` are a parameter, the randomness being external. -/
def aesCtrEncryptWithPbkdf2 (AES : List Nat → List Nat → List Nat)
    (kdf : String → List Nat → Nat → String → Nat → List Nat)
    (password : String) (opts : Pbkdf2Options) (salt : List Nat)
    (chunks : List (List Nat)) : Option (List (List Nat)) :=
  match deriveKeyAndIvByPbkdf2 kdf salt password opts with
  | none => none
  | some (key, iv) => some ((magicBytes ++ salt) :: aesCtrEncrypt AES key iv chunks)

/-- The chunk stream still pending behind a reassembler state: the source
rewraps the remaining reads (`encryptedReaderWithSalt.read()`) into a fresh
stream, which yields the buffered remainder first and then the unread
upstream chunks unchanged. -/
def pendingChunks (r : SizedReaderState) : List (List Nat) :=
  if r.buf.isEmpty then r.chunks else r.buf :: r.chunks

/-- `aesCtrDecryptWithPbkdf2` from the source: in `start`, read exactly 8
bytes (the source stores them in a variable named `Salted__` and checks only
that the read returned 8 bytes — it never compares them with the magic),
then read exactly 8 salt bytes, derive key and iv from that salt, and feed
every remaining byte through `aesCtrDecrypt`.  A short or done read throws,
modelled as `Except.error`. -/
def aesCtrDecryptWithPbkdf2 (AES : List Nat → List Nat → List Nat)
    (kdf : String → List Nat → Nat → String → Nat → List Nat)
    (password : String) (opts : Pbkdf2Options)
    (chunks : List (List Nat)) : Except String (List (List Nat)) :=
  match readExact 8 ⟨[], chunks⟩ with
  | (none, _) => Except.error "unexpected done"
  | (some magicRead, r1) =>
    if magicRead.length ≠ 8 then Except.error "unexpected length" else
    match readExact 8 r1 with
    | (none, _) => Except.error "unexpected done"
    | (some saltRead, r2) =>
      if saltRead.length ≠ 8 then Except.error "unexpected length" else
      match deriveKeyAndIvByPbkdf2 kdf saltRead password opts with
      | none => Except.error "unsupported keyBits"
      | some (key, iv) => Except.ok (aesCtrDecrypt AES key iv (pendingChunks r2))

/-- Each emitted chunk is nonempty, stays inside the 16-byte counter block
that starts at the running payload offset rounded down, and advances the
in-block offset by its length (`off` is the payload offset modulo 16 at
which the next chunk begins). -/
def chunksWithinBlocks : Nat → List (List Nat) → Bool
  | _, [] => true
  | off, c :: rest =>
    decide (1 ≤ c.length) && decide (off + c.length ≤ 16) &&
      chunksWithinBlocks ((off + c.length) % 16) rest

/-- The chunks the reassembler actually delivers to the transform, pull by
pull: the mirror of `ctrRun` that records each `result.value` instead of the
ciphered slice, so output chunks and received chunks can be compared
pull-by-pull. -/
def ctrRunReads (F : List Nat → List Nat) : Nat → CtrState → SizedReaderState → List (List Nat)
  | 0, _, _ => []
  | fuel + 1, st, r =>
    match readUpTo st.restByteSize r.buf r.chunks with
    | (none, _) => []
    | (some v, r') => v :: ctrRunReads F fuel (ctrPull F st v).2 r'

/-- The sequence of reassembler reads consumed by `aesCtrEncrypt` on the
given input, one entry per pull. -/
def aesCtrEncryptReads (AES : List Nat → List Nat → List Nat) (key iv : List Nat)
    (chunks : List (List Nat)) : List (List Nat) :=
  ctrRunReads (AES key) (chunks.flatten.length + 1) (initCtrState iv) ⟨[], chunks⟩

/-- The sequence of reassembler reads consumed by `aesCtrDecrypt` on the
given input, one entry per pull. -/
def aesCtrDecryptReads (AES : List Nat → List Nat → List Nat) (key iv : List Nat)
    (chunks : List (List Nat)) : List (List Nat) :=
  ctrRunReads (AES key) (chunks.flatten.length + 1) (initCtrState iv) ⟨[], chunks⟩

lemma incrementCounterLE_length : ∀ l : List Nat, (incrementCounterLE l).length = l.length := by
  intro l
  induction l with
  | nil => rfl
  | cons b bs ih =>
    by_cases h : (b + 1) % 256 = 0 <;> simp [incrementCounterLE, h, ih]

lemma incrementCounter_length (c : List Nat) :
    (incrementCounter c).length = c.length := by
  simp [incrementCounter, incrementCounterLE_length]

lemma incrementCounterLE_bytes : ∀ l : List Nat, (∀ b ∈ l, b < 256) →
    ∀ b ∈ incrementCounterLE l, b < 256 := by
  intro l
  induction l with
  | nil => intro _ b hb; simp [incrementCounterLE] at hb
  | cons x xs ih =>
    intro h b hb
    by_cases hx : (x + 1) % 256 = 0
    · rw [show incrementCounterLE (x :: xs) = 0 :: incrementCounterLE xs from by
        simp [incrementCounterLE, hx]] at hb
      rcases List.mem_cons.mp hb with hb | hb
      · omega
      · exact ih (fun y hy => h y (List.mem_cons_of_mem _ hy)) b hb
    · rw [show incrementCounterLE (x :: xs) = ((x + 1) % 256) :: xs from by
        simp [incrementCounterLE, hx]] at hb
      rcases List.mem_cons.mp hb with hb | hb
      · have h2 : (x + 1) % 256 < 256 := Nat.mod_lt _ (by norm_num)
        omega
      · exact h b (List.mem_cons_of_mem _ hb)

lemma incrementCounter_bytes (c : List Nat) (h : ∀ b ∈ c, b < 256) :
    ∀ b ∈ incrementCounter c, b < 256 := by
  intro b hb
  simp only [incrementCounter, List.mem_reverse] at hb
  exact incrementCounterLE_bytes c.reverse (by simpa using h) b hb

lemma toNatLE_lt : ∀ l : List Nat, (∀ b ∈ l, b < 256) → toNatLE l < 256 ^ l.length := by
  intro l
  induction l with
  | nil => intro _; simp [toNatLE]
  | cons b bs ih =>
    intro h
    have hb : b < 256 := h b (List.mem_cons_self _ _)
    have ht : toNatLE bs < 256 ^ bs.length :=
      ih (fun y hy => h y (List.mem_cons_of_mem _ hy))
    have : 256 ^ (b :: bs).length = 256 * 256 ^ bs.length := by
      simp [List.length_cons, pow_succ]; ring
    rw [this, toNatLE]
    omega

lemma toNatLE_incrementCounterLE : ∀ l : List Nat, (∀ b ∈ l, b < 256) →
    toNatLE (incrementCounterLE l) = (toNatLE l + 1) % 256 ^ l.length := by
  intro l
  induction l with
  | nil => intro _; simp [incrementCounterLE, toNatLE]
  | cons b bs ih =>
    intro h
    have hb : b < 256 := h b (List.mem_cons_self _ _)
    have htail : ∀ y ∈ bs, y < 256 := fun y hy => h y (List.mem_cons_of_mem _ hy)
    have ht : toNatLE bs < 256 ^ bs.length := toNatLE_lt bs htail
    have hpow : 256 ^ (b :: bs).length = 256 * 256 ^ bs.length := by
      simp [List.length_cons, pow_succ]; ring
    by_cases hx : (b + 1) % 256 = 0
    · have hb255 : b = 255 := by omega
      subst hb255
      rw [show incrementCounterLE (255 :: bs) = 0 :: incrementCounterLE bs from by
        simp [incrementCounterLE]]
      rw [toNatLE, toNatLE, ih htail, hpow,
        show (255 + 256 * toNatLE bs + 1) = 256 * (toNatLE bs + 1) by ring,
        Nat.mul_mod_mul_left]
      omega
    · have hb' : b < 255 := by
        rcases Nat.lt_or_ge b 255 with h' | h'
        · exact h'
        · exfalso
          have hb255 : b = 255 := by omega
          rw [hb255] at hx
          norm_num at hx
      have h3 : 256 * (toNatLE bs + 1) ≤ 256 * 256 ^ bs.length :=
        Nat.mul_le_mul_left _ ht
      rw [show incrementCounterLE (b :: bs) = ((b + 1) % 256) :: bs from by
        simp [incrementCounterLE, hx]]
      rw [Nat.mod_eq_of_lt (show b + 1 < 256 by omega), toNatLE, toNatLE, hpow,
        Nat.mod_eq_of_lt (show b + 256 * toNatLE bs + 1 < 256 * 256 ^ bs.length by omega)]
      omega

lemma toNatBE_incrementCounter (c : List Nat) (h : ∀ b ∈ c, b < 256) :
    toNatBE (incrementCounter c) = (toNatBE c + 1) % 256 ^ c.length := by
  simp only [toNatBE, incrementCounter, List.reverse_reverse]
  rw [toNatLE_incrementCounterLE c.reverse (by simpa using h)]
  simp

lemma readUpTo_none : ∀ (n : Nat) (buf : List Nat) (cs : List (List Nat)) (r' : SizedReaderState),
    readUpTo n buf cs = (none, r') → buf ++ cs.flatten = [] := by
  intro n buf cs
  induction cs generalizing buf with
  | nil =>
    intro r' h
    cases buf with
    | nil => simp
    | cons b bs => simp [readUpTo] at h
  | cons c cs ih =>
    intro r' h
    cases buf with
    | nil =>
      rw [readUpTo] at h
      have := ih c r' h
      simpa using this
    | cons b bs => simp [readUpTo] at h

lemma readUpTo_some_spec : ∀ (n : Nat) (buf : List Nat) (cs : List (List Nat))
    (v : List Nat) (r' : SizedReaderState),
    readUpTo n buf cs = (some v, r') →
    v ++ flatOf r' = buf ++ cs.flatten ∧ v.length ≤ n ∧ (0 < n → v ≠ []) := by
  intro n buf cs
  induction cs generalizing buf with
  | nil =>
    intro v r' h
    cases buf with
    | nil => simp [readUpTo] at h
    | cons b bs =>
      rw [readUpTo] at h
      obtain ⟨hv, hr⟩ := Prod.mk.injEq .. ▸ h
      injection hv with hv
      subst hv
      subst hr
      refine ⟨?_, ?_, ?_⟩
      · simp [flatOf]
      · simp [List.length_take]
      · intro hn
        simp [List.take_eq_nil_iff]
        omega
  | cons c cs ih =>
    intro v r' h
    cases buf with
    | nil =>
      rw [readUpTo] at h
      have := ih c v r' h
      simpa using this
    | cons b bs =>
      rw [readUpTo] at h
      obtain ⟨hv, hr⟩ := Prod.mk.injEq .. ▸ h
      injection hv with hv
      subst hv
      subst hr
      refine ⟨?_, ?_, ?_⟩
      · simp only [flatOf, List.flatten_cons]
        rw [← List.append_assoc, List.take_append_drop]
      · simp [List.length_take]
      · intro hn
        simp [List.take_eq_nil_iff]
        omega

lemma ksBlocks_length (F : List Nat → List Nat) (hF : ∀ c, (F c).length = 16) :
    ∀ (b : Nat) (c : List Nat), (ksBlocks F c b).length = 16 * b := by
  intro b
  induction b with
  | zero => intro c; simp [ksBlocks]
  | succ b ih =>
    intro c
    simp [ksBlocks, hF, ih]
    ring

lemma setAt_length (dst src : List Nat) (off : Nat)
    (h : off + src.length ≤ dst.length) : (setAt dst src off).length = dst.length := by
  simp [setAt, List.length_take, List.length_drop]
  omega

lemma setAt_drop (dst src : List Nat) (off : Nat) (h : off ≤ dst.length) :
    (setAt dst src off).drop off = src ++ dst.drop (off + src.length) := by
  have hA : (dst.take off).length = off := by
    simp [List.length_take]
    omega
  have h0 : (dst.take off).drop off = [] := by
    apply List.drop_eq_nil_of_le
    simp [List.length_take]
  rw [setAt, List.append_assoc, List.drop_append_eq_append_drop, hA, Nat.sub_self, h0,
    List.drop_zero, List.nil_append]

lemma ctrPull_out (F : List Nat → List Nat) (st : CtrState) (v : List Nat)
    (hF : (F st.counter).length = 16)
    (hblock : st.block.length = 16)
    (hoff : st.blockOffset + v.length ≤ 16) :
    (ctrPull F st v).1
      = List.zipWith (· ^^^ ·) v (((F st.counter).drop st.blockOffset).take v.length) := by
  have hdrop : (setAt st.block v st.blockOffset).drop st.blockOffset
      = v ++ st.block.drop (st.blockOffset + v.length) :=
    setAt_drop _ _ _ (by omega)
  have h1 : (ctrPull F st v).1
      = ((ctrBlockOp F st.counter (setAt st.block v st.blockOffset)).drop st.blockOffset).take v.length := by
    rw [ctrPull]
    by_cases h : st.restByteSize - v.length = 0 <;> simp [h]
  rw [h1, ctrBlockOp, List.drop_zipWith, List.take_zipWith, hdrop,
    List.take_append_eq_append_take, List.take_length, Nat.sub_self, List.take_zero,
    List.append_nil]

lemma ctrPull_state (F : List Nat → List Nat) (st : CtrState) (v : List Nat) :
    (ctrPull F st v).2 = if st.restByteSize - v.length = 0 then
      (⟨blockByteSize, setAt st.block v st.blockOffset, 0, incrementCounter st.counter⟩ : CtrState)
    else
      ⟨st.restByteSize - v.length, setAt st.block v st.blockOffset,
        st.blockOffset + v.length, st.counter⟩ := by
  rw [ctrPull]
  by_cases h : st.restByteSize - v.length = 0 <;> simp [h]

lemma ctrRun_flatten (F : List Nat → List Nat) (hF : ∀ c, (F c).length = 16) :
    ∀ (fuel : Nat) (st : CtrState) (r : SizedReaderState) (B : Nat),
      (flatOf r).length < fuel →
      st.restByteSize + st.blockOffset = 16 →
      1 ≤ st.restByteSize →
      st.block.length = 16 →
      st.blockOffset + (flatOf r).length ≤ 16 * B →
      (ctrRun F fuel st r).flatten
        = List.zipWith (· ^^^ ·) (flatOf r) ((ksBlocks F st.counter B).drop st.blockOffset) := by
  intro fuel
  induction fuel with
  | zero =>
    intro st r B h1 h2 h3 h4 h5
    exact absurd h1 (Nat.not_lt_zero _)
  | succ fuel ih =>
    intro st r B h1 h2 h3 h4 h5
    cases hread : readUpTo st.restByteSize r.buf r.chunks with
    | mk o r' =>
    cases o with
    | none =>
      have hflat : flatOf r = [] := readUpTo_none _ _ _ _ hread
      rw [ctrRun, hread, hflat]
      simp
    | some v =>
      obtain ⟨hvflat, hvlen, hvne⟩ := readUpTo_some_spec _ _ _ _ _ hread
      have hvne' : v ≠ [] := hvne (by omega)
      have hn1 : 1 ≤ v.length := List.length_pos.mpr hvne'
      have hflat : flatOf r = v ++ flatOf r' := hvflat.symm
      have hlenflat : (flatOf r).length = v.length + (flatOf r').length := by
        rw [hflat]
        simp
      have hoffn : st.blockOffset + v.length ≤ 16 := by omega
      have hB1 : 1 ≤ B := by
        by_contra hB
        have hB0 : B = 0 := by omega
        subst hB0
        omega
      obtain ⟨B', rfl⟩ : ∃ B', B = B' + 1 := ⟨B - 1, by omega⟩
      have hks : ksBlocks F st.counter (B' + 1)
          = F st.counter ++ ksBlocks F (incrementCounter st.counter) B' := rfl
      have hout : (ctrPull F st v).1
          = List.zipWith (· ^^^ ·) v (((F st.counter).drop st.blockOffset).take v.length) :=
        ctrPull_out F st v (hF _) h4 hoffn
      have hFdroplen : ((F st.counter).drop st.blockOffset).length = 16 - st.blockOffset := by
        rw [List.length_drop, hF]
      rw [ctrRun, hread]
      show ((ctrPull F st v).1 :: ctrRun F fuel (ctrPull F st v).2 r').flatten = _
      rw [List.flatten_cons]
      by_cases hrest : st.restByteSize - v.length = 0
      · -- the read completed the current block: counter advances, window resets
        have hoffeq : st.blockOffset + v.length = 16 := by omega
        have hstate : (ctrPull F st v).2
            = ⟨blockByteSize, setAt st.block v st.blockOffset, 0,
                incrementCounter st.counter⟩ := by
          rw [ctrPull_state]
          simp [hrest]
        have hihyp := ih ⟨blockByteSize, setAt st.block v st.blockOffset, 0,
            incrementCounter st.counter⟩ r' B' (by omega)
            (by simp [blockByteSize]) (by simp [blockByteSize])
            (by show (setAt st.block v st.blockOffset).length = 16
                rw [setAt_length st.block v st.blockOffset (by omega)]
                exact h4)
            (by simp; omega)
        simp only at hihyp
        rw [hstate, hihyp, List.drop_zero, hflat, hks, List.drop_append_eq_append_drop,
          hF, show st.blockOffset - 16 = 0 by omega, List.drop_zero,
          List.zipWith_append _ _ _ _ _ (by rw [hFdroplen]; omega), hout,
          List.take_of_length_le (by rw [hFdroplen]; omega)]
      · -- mid-block read: same counter, offset advances
        have hstate : (ctrPull F st v).2
            = ⟨st.restByteSize - v.length, setAt st.block v st.blockOffset,
                st.blockOffset + v.length, st.counter⟩ := by
          rw [ctrPull_state]
          simp [hrest]
        have hihyp := ih ⟨st.restByteSize - v.length, setAt st.block v st.blockOffset,
            st.blockOffset + v.length, st.counter⟩ r' (B' + 1) (by omega)
            (by simp; omega) (by simp; omega)
            (by show (setAt st.block v st.blockOffset).length = 16
                rw [setAt_length st.block v st.blockOffset (by omega)]
                exact h4)
            (by simp; omega)
        simp only at hihyp
        have hkslen : (ksBlocks F st.counter (B' + 1)).length = 16 * (B' + 1) :=
          ksBlocks_length F hF _ _
        have hdroplen : v.length ≤ ((ksBlocks F st.counter (B' + 1)).drop st.blockOffset).length := by
          rw [List.length_drop, hkslen]
          omega
        -- split the keystream after the first v.length bytes
        rw [hstate, hihyp, hflat,
          ← List.take_append_drop v.length ((ksBlocks F st.counter (B' + 1)).drop st.blockOffset),
          List.zipWith_append _ _ _ _ _
            (by rw [List.length_take]; omega),
          List.drop_drop]
        congr 1
        rw [hout, hks, List.drop_append_eq_append_drop, hF,
          show st.blockOffset - 16 = 0 by omega, List.drop_zero,
          List.take_append_eq_append_take,
          show v.length - ((F st.counter).drop st.blockOffset).length = 0 by
            rw [hFdroplen]; omega,
          List.take_zero, List.append_nil]

lemma aesCtrEncrypt_flatten (AES : List Nat → List Nat → List Nat) (key iv : List Nat)
    (cs : List (List Nat)) (hF : ∀ c, (AES key c).length = 16) :
    (aesCtrEncrypt AES key iv cs).flatten = ctrRef (AES key) iv cs.flatten := by
  rw [aesCtrEncrypt, ctrRef]
  have h := ctrRun_flatten (AES key) hF (cs.flatten.length + 1) (initCtrState iv)
    ⟨[], cs⟩ (cs.flatten.length / 16 + 1)
    (by simp [flatOf]) (by simp [initCtrState, blockByteSize])
    (by simp [initCtrState, blockByteSize]) (by simp [initCtrState, blockByteSize])
    (by simp [flatOf, initCtrState]; omega)
  simpa [flatOf, initCtrState] using h

lemma aesCtrDecrypt_flatten (AES : List Nat → List Nat → List Nat) (key iv : List Nat)
    (cs : List (List Nat)) (hF : ∀ c, (AES key c).length = 16) :
    (aesCtrDecrypt AES key iv cs).flatten = ctrRef (AES key) iv cs.flatten := by
  rw [aesCtrDecrypt, ctrRef]
  have h := ctrRun_flatten (AES key) hF (cs.flatten.length + 1) (initCtrState iv)
    ⟨[], cs⟩ (cs.flatten.length / 16 + 1)
    (by simp [flatOf]) (by simp [initCtrState, blockByteSize])
    (by simp [initCtrState, blockByteSize]) (by simp [initCtrState, blockByteSize])
    (by simp [flatOf, initCtrState]; omega)
  simpa [flatOf, initCtrState] using h

lemma ctrRef_length (F : List Nat → List Nat) (iv P : List Nat)
    (hF : ∀ c, (F c).length = 16) : (ctrRef F iv P).length = P.length := by
  rw [ctrRef, List.length_zipWith, ksBlocks_length F hF]
  have : P.length ≤ 16 * (P.length / 16 + 1) := by omega
  omega

lemma zipWith_xor_involution : ∀ (P K : List Nat), P.length ≤ K.length →
    List.zipWith (· ^^^ ·) (List.zipWith (· ^^^ ·) P K) K = P := by
  intro P
  induction P with
  | nil => intro K h; simp
  | cons a P ih =>
    intro K h
    cases K with
    | nil => simp at h
    | cons b K =>
      simp only [List.zipWith_cons_cons]
      rw [ih K (by simpa using h)]
      congr 1
      exact Nat.xor_cancel_right b a

/-- C1.  Chunk-boundary independence: for every key, iv, and plaintext byte
sequence, and for every two ways of splitting that plaintext into a sequence
of chunks, `aesCtrEncrypt` produces the same ciphertext byte sequence — the
concatenations of the emitted output chunks are equal — because each pull
fills the 16-byte block window at the current offset, ciphers the full
window under the current counter, and emits only the slice corresponding to
the newly received bytes. -/
theorem chunk_boundary_independence (AES : List Nat → List Nat → List Nat)
    (key iv : List Nat) (cs1 cs2 : List (List Nat))
    (hF : ∀ c, (AES key c).length = 16)
    (hsplit : cs1.flatten = cs2.flatten) :
    (aesCtrEncrypt AES key iv cs1).flatten = (aesCtrEncrypt AES key iv cs2).flatten := by
  rw [aesCtrEncrypt_flatten AES key iv cs1 hF, aesCtrEncrypt_flatten AES key iv cs2 hF,
    hsplit]

theorem chunk_boundary_independence_witness :
    ((fun _ _ => List.replicate 16 0) : List Nat → List Nat → List Nat) = (fun _ _ => List.replicate 16 0) ∧
    ([[1, 2], [3]] : List (List Nat)).flatten = ([[1], [2, 3]] : List (List Nat)).flatten ∧
    (aesCtrEncrypt (fun _ _ => List.replicate 16 0) [7] [0] [[1, 2], [3]]).flatten
      = (aesCtrEncrypt (fun _ _ => List.replicate 16 0) [7] [0] [[1], [2, 3]]).flatten :=
  ⟨rfl, by decide,
    chunk_boundary_independence (fun _ _ => List.replicate 16 0) [7] [0]
      [[1, 2], [3]] [[1], [2, 3]] (fun _ => rfl) (by decide)⟩

lemma ctrRef_involution (F : List Nat → List Nat) (iv P : List Nat)
    (hF : ∀ c, (F c).length = 16) : ctrRef F iv (ctrRef F iv P) = P := by
  rw [show ctrRef F iv (ctrRef F iv P)
      = List.zipWith (· ^^^ ·) (ctrRef F iv P)
        (ksBlocks F iv ((ctrRef F iv P).length / 16 + 1)) from rfl,
    ctrRef_length F iv P hF, ctrRef]
  exact zipWith_xor_involution P _ (by rw [ksBlocks_length F hF]; omega)

/-- C2.  Explicit-key round trip: for every plaintext, every key of length
16 or 32, and every 16-byte iv, feeding the output of `aesCtrEncrypt` into
`aesCtrDecrypt` with the same key and iv yields a stream whose concatenated
bytes equal the plaintext, because the cipher step is its own inverse (CTR
is XOR-symmetric) and both transforms advance the counter identically. -/
theorem explicit_key_round_trip (AES : List Nat → List Nat → List Nat)
    (key iv : List Nat) (cs : List (List Nat))
    (hF : ∀ c, (AES key c).length = 16)
    (hkey : key.length = 16 ∨ key.length = 32) (hiv : iv.length = 16) :
    (aesCtrDecrypt AES key iv (aesCtrEncrypt AES key iv cs)).flatten = cs.flatten := by
  rw [aesCtrDecrypt_flatten AES key iv _ hF, aesCtrEncrypt_flatten AES key iv cs hF]
  exact ctrRef_involution (AES key) iv cs.flatten hF

theorem explicit_key_round_trip_witness :
    (∀ c, (((fun _ _ => List.replicate 16 1) : List Nat → List Nat → List Nat)
        (List.replicate 16 0) c).length = 16) ∧
    (aesCtrDecrypt (fun _ _ => List.replicate 16 1) (List.replicate 16 0) (List.replicate 16 2)
      (aesCtrEncrypt (fun _ _ => List.replicate 16 1) (List.replicate 16 0) (List.replicate 16 2)
        [[9, 8], [7]])).flatten = ([[9, 8], [7]] : List (List Nat)).flatten :=
  ⟨fun _ => rfl,
    explicit_key_round_trip (fun _ _ => List.replicate 16 1) (List.replicate 16 0)
      (List.replicate 16 2) [[9, 8], [7]] (fun _ => rfl) (Or.inl (by decide)) (by decide)⟩

lemma aesCtrEncrypt_length (AES : List Nat → List Nat → List Nat) (key iv : List Nat)
    (cs : List (List Nat)) (hF : ∀ c, (AES key c).length = 16) :
    (aesCtrEncrypt AES key iv cs).flatten.length = cs.flatten.length := by
  rw [aesCtrEncrypt_flatten AES key iv cs hF, ctrRef_length _ _ _ hF]

lemma aesCtrDecrypt_length (AES : List Nat → List Nat → List Nat) (key iv : List Nat)
    (cs : List (List Nat)) (hF : ∀ c, (AES key c).length = 16) :
    (aesCtrDecrypt AES key iv cs).flatten.length = cs.flatten.length := by
  rw [aesCtrDecrypt_flatten AES key iv cs hF, ctrRef_length _ _ _ hF]

lemma ctrPull_length (F : List Nat → List Nat) (st : CtrState) (v : List Nat)
    (hF : (F st.counter).length = 16) (hblock : st.block.length = 16)
    (hoff : st.blockOffset + v.length ≤ 16) :
    (ctrPull F st v).1.length = v.length := by
  rw [ctrPull_out F st v hF hblock hoff, List.length_zipWith, List.length_take,
    List.length_drop, hF]
  omega

lemma ctrRun_map_length (F : List Nat → List Nat) (hF : ∀ c, (F c).length = 16) :
    ∀ (fuel : Nat) (st : CtrState) (r : SizedReaderState),
      st.restByteSize + st.blockOffset = 16 →
      1 ≤ st.restByteSize →
      st.block.length = 16 →
      (ctrRun F fuel st r).map List.length = (ctrRunReads F fuel st r).map List.length := by
  intro fuel
  induction fuel with
  | zero =>
    intro st r h2 h3 h4
    rfl
  | succ fuel ih =>
    intro st r h2 h3 h4
    cases hread : readUpTo st.restByteSize r.buf r.chunks with
    | mk o r' =>
    cases o with
    | none =>
      rw [ctrRun, ctrRunReads, hread]
    | some v =>
      obtain ⟨hvflat, hvlen, hvne⟩ := readUpTo_some_spec _ _ _ _ _ hread
      have hvne' : v ≠ [] := hvne (by omega)
      have hn1 : 1 ≤ v.length := List.length_pos.mpr hvne'
      have hoffn : st.blockOffset + v.length ≤ 16 := by omega
      have houtlen : (ctrPull F st v).1.length = v.length :=
        ctrPull_length F st v (hF _) h4 hoffn
      rw [ctrRun, ctrRunReads, hread]
      show ((ctrPull F st v).1 :: ctrRun F fuel (ctrPull F st v).2 r').map List.length
        = (v :: ctrRunReads F fuel (ctrPull F st v).2 r').map List.length
      rw [List.map_cons, List.map_cons, houtlen]
      congr 1
      by_cases hrest : st.restByteSize - v.length = 0
      · rw [ctrPull_state, if_pos hrest]
        exact ih ⟨blockByteSize, setAt st.block v st.blockOffset, 0,
            incrementCounter st.counter⟩ r' (by simp [blockByteSize])
            (by simp [blockByteSize])
            (by show (setAt st.block v st.blockOffset).length = 16
                rw [setAt_length st.block v st.blockOffset (by omega)]
                exact h4)
      · rw [ctrPull_state, if_neg hrest]
        exact ih ⟨st.restByteSize - v.length, setAt st.block v st.blockOffset,
            st.blockOffset + v.length, st.counter⟩ r' (by simp; omega) (by simp; omega)
            (by show (setAt st.block v st.blockOffset).length = 16
                rw [setAt_length st.block v st.blockOffset (by omega)]
                exact h4)

/-- C5.  Length preservation: for every key, iv, and input stream, the total
number of output bytes of `aesCtrEncrypt` (and of `aesCtrDecrypt`) equals
the total number of input bytes — no padding and no truncation; on the
password path the output exceeds the input by exactly the 16-byte header.
Moreover each pull emits an output chunk of exactly the same byte length as
the bytes received from the reassembler in that pull: the pull body
`ctrPull` emits a slice of the received length (under the engine's state
invariants), and pull-by-pull the output chunk lengths of a whole run match
the lengths of the reassembler reads consumed by it. -/
theorem length_preservation (AES : List Nat → List Nat → List Nat)
    (kdf : String → List Nat → Nat → String → Nat → List Nat)
    (key iv : List Nat) (password : String) (opts : Pbkdf2Options)
    (salt : List Nat) (cs : List (List Nat))
    (hF : ∀ k c, (AES k c).length = 16) (hsalt : salt.length = 8) :
    (aesCtrEncrypt AES key iv cs).flatten.length = cs.flatten.length
    ∧ (aesCtrDecrypt AES key iv cs).flatten.length = cs.flatten.length
    ∧ (∀ out, aesCtrEncryptWithPbkdf2 AES kdf password opts salt cs = some out →
        out.flatten.length = 16 + cs.flatten.length)
    ∧ (∀ (st : CtrState) (v : List Nat),
        st.restByteSize + st.blockOffset = 16 →
        st.block.length = 16 →
        v.length ≤ st.restByteSize →
        (ctrPull (AES key) st v).1.length = v.length)
    ∧ (aesCtrEncrypt AES key iv cs).map List.length
        = (aesCtrEncryptReads AES key iv cs).map List.length
    ∧ (aesCtrDecrypt AES key iv cs).map List.length
        = (aesCtrDecryptReads AES key iv cs).map List.length := by
  refine ⟨aesCtrEncrypt_length AES key iv cs (hF key),
    aesCtrDecrypt_length AES key iv cs (hF key), ?_, ?_, ?_, ?_⟩
  · intro out hout
    rw [aesCtrEncryptWithPbkdf2] at hout
    cases hder : deriveKeyAndIvByPbkdf2 kdf salt password opts with
    | none =>
      rw [hder] at hout
      exact absurd hout (by simp)
    | some kiv =>
      obtain ⟨key2, iv2⟩ := kiv
      rw [hder] at hout
      injection hout with hout
      rw [← hout, List.flatten_cons, List.length_append, List.length_append,
        aesCtrEncrypt_length AES key2 iv2 cs (hF key2)]
      simp [magicBytes, hsalt]
  · intro st v h1 h2 h3
    exact ctrPull_length (AES key) st v (hF key st.counter) h2 (by omega)
  · exact ctrRun_map_length (AES key) (hF key) (cs.flatten.length + 1) (initCtrState iv)
      ⟨[], cs⟩ (by simp [initCtrState, blockByteSize])
      (by simp [initCtrState, blockByteSize]) (by simp [initCtrState, blockByteSize])
  · exact ctrRun_map_length (AES key) (hF key) (cs.flatten.length + 1) (initCtrState iv)
      ⟨[], cs⟩ (by simp [initCtrState, blockByteSize])
      (by simp [initCtrState, blockByteSize]) (by simp [initCtrState, blockByteSize])

theorem length_preservation_witness :
    (aesCtrEncrypt (fun _ _ => List.replicate 16 0) [1] [2] [[3, 4, 5]]).flatten.length
      = ([[3, 4, 5]] : List (List Nat)).flatten.length
    ∧ (aesCtrDecrypt (fun _ _ => List.replicate 16 0) [1] [2] [[3, 4, 5]]).flatten.length
      = ([[3, 4, 5]] : List (List Nat)).flatten.length
    ∧ (∀ out, aesCtrEncryptWithPbkdf2 (fun _ _ => List.replicate 16 0)
        (fun _ _ _ _ n => List.replicate (n / 8) 0) "pw" ⟨128, 1000, "SHA-256"⟩
        (List.replicate 8 9) [[3, 4, 5]] = some out →
        out.flatten.length = 16 + ([[3, 4, 5]] : List (List Nat)).flatten.length)
    ∧ (∀ (st : CtrState) (v : List Nat),
        st.restByteSize + st.blockOffset = 16 →
        st.block.length = 16 →
        v.length ≤ st.restByteSize →
        (ctrPull ((fun (_ : List Nat) (_ : List Nat) => List.replicate 16 0) [1]) st v).1.length
          = v.length)
    ∧ (aesCtrEncrypt (fun _ _ => List.replicate 16 0) [1] [2] [[3, 4, 5]]).map List.length
        = (aesCtrEncryptReads (fun _ _ => List.replicate 16 0) [1] [2] [[3, 4, 5]]).map List.length
    ∧ (aesCtrDecrypt (fun _ _ => List.replicate 16 0) [1] [2] [[3, 4, 5]]).map List.length
        = (aesCtrDecryptReads (fun _ _ => List.replicate 16 0) [1] [2] [[3, 4, 5]]).map List.length :=
  length_preservation (fun _ _ => List.replicate 16 0)
    (fun _ _ _ _ n => List.replicate (n / 8) 0) [1] [2] "pw" ⟨128, 1000, "SHA-256"⟩
    (List.replicate 8 9) [[3, 4, 5]] (fun _ _ => rfl) (by decide)

/-- C7.  Counter increment semantics: for every 16-byte counter value `c`
(all entries bytes), `incrementCounter c` is the big-endian representation
of `(toNatBE c + 1) mod 2^128` — the last byte is incremented, a byte that
wraps past `0xFF` to `0x00` propagates the carry to the preceding byte, the
all-`0xFF` counter becomes all-zero — and the length of the array is
unchanged. -/
theorem increment_counter_semantics (c : List Nat) (hlen : c.length = 16)
    (hbytes : ∀ b ∈ c, b < 256) :
    (incrementCounter c).length = 16
    ∧ (∀ b ∈ incrementCounter c, b < 256)
    ∧ toNatBE (incrementCounter c) = (toNatBE c + 1) % 2 ^ 128 := by
  refine ⟨by rw [incrementCounter_length, hlen], incrementCounter_bytes c hbytes, ?_⟩
  rw [toNatBE_incrementCounter c hbytes, hlen]
  norm_num

theorem increment_counter_semantics_witness :
    ((incrementCounter (List.replicate 16 255)).length = 16
      ∧ (∀ b ∈ incrementCounter (List.replicate 16 255), b < 256)
      ∧ toNatBE (incrementCounter (List.replicate 16 255))
        = (toNatBE (List.replicate 16 255) + 1) % 2 ^ 128)
    ∧ incrementCounter (List.replicate 16 255) = List.replicate 16 0 :=
  ⟨increment_counter_semantics (List.replicate 16 255) (by decide) (by decide),
    by decide⟩

lemma ctrRun_withinBlocks (F : List Nat → List Nat) (hF : ∀ c, (F c).length = 16) :
    ∀ (fuel : Nat) (st : CtrState) (r : SizedReaderState),
      st.restByteSize + st.blockOffset = 16 →
      1 ≤ st.restByteSize →
      st.block.length = 16 →
      chunksWithinBlocks st.blockOffset (ctrRun F fuel st r) = true := by
  intro fuel
  induction fuel with
  | zero =>
    intro st r h2 h3 h4
    simp [ctrRun, chunksWithinBlocks]
  | succ fuel ih =>
    intro st r h2 h3 h4
    cases hread : readUpTo st.restByteSize r.buf r.chunks with
    | mk o r' =>
    cases o with
    | none =>
      rw [ctrRun, hread]
      simp [chunksWithinBlocks]
    | some v =>
      obtain ⟨hvflat, hvlen, hvne⟩ := readUpTo_some_spec _ _ _ _ _ hread
      have hvne' : v ≠ [] := hvne (by omega)
      have hn1 : 1 ≤ v.length := List.length_pos.mpr hvne'
      have hoffn : st.blockOffset + v.length ≤ 16 := by omega
      have hout : (ctrPull F st v).1
          = List.zipWith (· ^^^ ·) v (((F st.counter).drop st.blockOffset).take v.length) :=
        ctrPull_out F st v (hF _) h4 hoffn
      have houtlen : (ctrPull F st v).1.length = v.length := by
        rw [hout, List.length_zipWith, List.length_take, List.length_drop, hF]
        omega
      rw [ctrRun, hread]
      show chunksWithinBlocks st.blockOffset
        ((ctrPull F st v).1 :: ctrRun F fuel (ctrPull F st v).2 r') = true
      simp only [chunksWithinBlocks, Bool.and_eq_true, decide_eq_true_eq, houtlen]
      refine ⟨⟨by omega, by omega⟩, ?_⟩
      by_cases hrest : st.restByteSize - v.length = 0
      · have hoffeq : st.blockOffset + v.length = 16 := by omega
        rw [hoffeq, ctrPull_state, if_pos hrest]
        have h := ih ⟨blockByteSize, setAt st.block v st.blockOffset, 0,
            incrementCounter st.counter⟩ r' (by simp [blockByteSize])
            (by simp [blockByteSize])
            (by show (setAt st.block v st.blockOffset).length = 16
                rw [setAt_length st.block v st.blockOffset (by omega)]
                exact h4)
        simpa using h
      · rw [Nat.mod_eq_of_lt (by omega), ctrPull_state, if_neg hrest]
        have h := ih ⟨st.restByteSize - v.length, setAt st.block v st.blockOffset,
            st.blockOffset + v.length, st.counter⟩ r' (by simp; omega) (by simp; omega)
            (by show (setAt st.block v st.blockOffset).length = 16
                rw [setAt_length st.block v st.blockOffset (by omega)]
                exact h4)
        simpa using h

/-- C10.  Output chunk granularity: every output chunk enqueued by
`aesCtrEncrypt` or `aesCtrDecrypt` is between 1 and 16 bytes long and lies
entirely within a single 16-byte counter block — each pull requests at most
the bytes remaining in the current block, so the in-block offset plus the
emitted length never exceeds 16; consequently an input chunk spanning a
block boundary is re-emitted split at the boundary. -/
theorem output_chunk_granularity (AES : List Nat → List Nat → List Nat)
    (key iv : List Nat) (cs : List (List Nat))
    (hF : ∀ c, (AES key c).length = 16) :
    chunksWithinBlocks 0 (aesCtrEncrypt AES key iv cs) = true
    ∧ chunksWithinBlocks 0 (aesCtrDecrypt AES key iv cs) = true := by
  constructor
  · exact ctrRun_withinBlocks (AES key) hF (cs.flatten.length + 1) (initCtrState iv)
      ⟨[], cs⟩ (by simp [initCtrState, blockByteSize])
      (by simp [initCtrState, blockByteSize]) (by simp [initCtrState, blockByteSize])
  · exact ctrRun_withinBlocks (AES key) hF (cs.flatten.length + 1) (initCtrState iv)
      ⟨[], cs⟩ (by simp [initCtrState, blockByteSize])
      (by simp [initCtrState, blockByteSize]) (by simp [initCtrState, blockByteSize])

theorem output_chunk_granularity_witness :
    chunksWithinBlocks 0 (aesCtrEncrypt (fun _ _ => List.replicate 16 0) [1] [2]
      [List.replicate 20 7, [1, 2]]) = true
    ∧ chunksWithinBlocks 0 (aesCtrDecrypt (fun _ _ => List.replicate 16 0) [1] [2]
      [List.replicate 20 7, [1, 2]]) = true :=
  output_chunk_granularity (fun _ _ => List.replicate 16 0) [1] [2]
    [List.replicate 20 7, [1, 2]] (fun _ => rfl)

lemma getD_zipWith_xor (P K : List Nat) (o : Nat) (ho : o < P.length)
    (hK : P.length ≤ K.length) :
    (List.zipWith (· ^^^ ·) P K).getD o 0 = P.getD o 0 ^^^ K.getD o 0 := by
  have hz : o < (List.zipWith (· ^^^ ·) P K).length := by
    rw [List.length_zipWith]
    omega
  rw [List.getD_eq_getElem _ _ hz, List.getD_eq_getElem _ _ ho,
    List.getD_eq_getElem _ _ (show o < K.length by omega), List.getElem_zipWith]

lemma ksBlocks_getD (F : List Nat → List Nat) (hF : ∀ c, (F c).length = 16) :
    ∀ (b : Nat) (c : List Nat) (o : Nat), o < 16 * b →
      (ksBlocks F c b).getD o 0 = (F (incrementCounter^[o / 16] c)).getD (o % 16) 0 := by
  intro b
  induction b with
  | zero =>
    intro c o h
    omega
  | succ b ih =>
    intro c o h
    by_cases ho : o < 16
    · rw [show ksBlocks F c (b + 1) = F c ++ ksBlocks F (incrementCounter c) b from rfl,
        List.getD_append _ _ _ _ (by rw [hF]; omega),
        show o / 16 = 0 by omega, show o % 16 = o by omega]
      rfl
    · rw [show ksBlocks F c (b + 1) = F c ++ ksBlocks F (incrementCounter c) b from rfl,
        List.getD_append_right _ _ _ _ (by rw [hF]; omega), hF,
        show o / 16 = (o - 16) / 16 + 1 by omega, Function.iterate_succ_apply,
        show o % 16 = (o - 16) % 16 by omega]
      exact ih (incrementCounter c) (o - 16) (by omega)

lemma iterate_increment_props (c : List Nat) (hlen : c.length = 16)
    (hb : ∀ b ∈ c, b < 256) : ∀ k : Nat,
    (incrementCounter^[k] c).length = 16
    ∧ (∀ b ∈ incrementCounter^[k] c, b < 256)
    ∧ toNatBE (incrementCounter^[k] c) = (toNatBE c + k) % 2 ^ 128 := by
  intro k
  induction k with
  | zero =>
    refine ⟨hlen, hb, ?_⟩
    have hlt : toNatBE c < 2 ^ 128 := by
      have h := toNatLE_lt c.reverse (by simpa using hb)
      rw [List.length_reverse, hlen, show (256 : Nat) ^ 16 = 2 ^ 128 by norm_num] at h
      exact h
    simpa using Nat.mod_eq_of_lt hlt |>.symm
  | succ k ih =>
    obtain ⟨ih1, ih2, ih3⟩ := ih
    rw [Function.iterate_succ_apply']
    refine ⟨by rw [incrementCounter_length, ih1], incrementCounter_bytes _ ih2, ?_⟩
    rw [toNatBE_incrementCounter _ ih2, ih1, ih3,
      show (256 : Nat) ^ 16 = 2 ^ 128 by norm_num, Nat.mod_add_mod, Nat.add_assoc]

lemma ctrRef_getD (F : List Nat → List Nat) (iv P : List Nat) (o : Nat)
    (hF : ∀ c, (F c).length = 16) (ho : o < P.length) :
    (ctrRef F iv P).getD o 0
      = P.getD o 0 ^^^ (F (incrementCounter^[o / 16] iv)).getD (o % 16) 0 := by
  rw [ctrRef, getD_zipWith_xor P _ o ho (by rw [ksBlocks_length F hF]; omega),
    ksBlocks_getD F hF _ iv o (by omega)]

/-- C6.  Counter-offset invariant: in any run of `aesCtrEncrypt` or
`aesCtrDecrypt` with initial counter the supplied 16-byte iv, the byte at
payload offset `o` is ciphered with the keystream byte `o % 16` of the
counter `incrementCounter^[o / 16] iv`, whose big-endian value is
`toNatBE iv + o / 16` modulo `2 ^ 128` — the counter is incremented exactly
once per completed 16-byte block, regardless of chunking. -/
theorem counter_offset_invariant (AES : List Nat → List Nat → List Nat)
    (key iv : List Nat) (cs : List (List Nat))
    (hF : ∀ c, (AES key c).length = 16) (hiv16 : iv.length = 16)
    (hivb : ∀ b ∈ iv, b < 256) (o : Nat) (ho : o < cs.flatten.length) :
    (aesCtrEncrypt AES key iv cs).flatten.getD o 0
        = cs.flatten.getD o 0 ^^^ (AES key (incrementCounter^[o / 16] iv)).getD (o % 16) 0
    ∧ (aesCtrDecrypt AES key iv cs).flatten.getD o 0
        = cs.flatten.getD o 0 ^^^ (AES key (incrementCounter^[o / 16] iv)).getD (o % 16) 0
    ∧ toNatBE (incrementCounter^[o / 16] iv) = (toNatBE iv + o / 16) % 2 ^ 128 := by
  refine ⟨?_, ?_, (iterate_increment_props iv hiv16 hivb (o / 16)).2.2⟩
  · rw [aesCtrEncrypt_flatten AES key iv cs hF]
    exact ctrRef_getD (AES key) iv cs.flatten o hF ho
  · rw [aesCtrDecrypt_flatten AES key iv cs hF]
    exact ctrRef_getD (AES key) iv cs.flatten o hF ho

theorem counter_offset_invariant_witness :
    (aesCtrEncrypt (fun _ _ => List.replicate 16 3) [1] (List.replicate 16 0)
        [[5, 6]]).flatten.getD 1 0
      = ([[5, 6]] : List (List Nat)).flatten.getD 1 0
        ^^^ ((fun (_ : List Nat) (_ : List Nat) => List.replicate 16 3) [1]
          (incrementCounter^[1 / 16] (List.replicate 16 0))).getD (1 % 16) 0
    ∧ (aesCtrDecrypt (fun _ _ => List.replicate 16 3) [1] (List.replicate 16 0)
        [[5, 6]]).flatten.getD 1 0
      = ([[5, 6]] : List (List Nat)).flatten.getD 1 0
        ^^^ ((fun (_ : List Nat) (_ : List Nat) => List.replicate 16 3) [1]
          (incrementCounter^[1 / 16] (List.replicate 16 0))).getD (1 % 16) 0
    ∧ toNatBE (incrementCounter^[1 / 16] (List.replicate 16 0))
      = (toNatBE (List.replicate 16 0) + 1 / 16) % 2 ^ 128 :=
  counter_offset_invariant (fun _ _ => List.replicate 16 3) [1] (List.replicate 16 0)
    [[5, 6]] (fun _ => rfl) (by decide) (by decide) 1 (by decide)

lemma readExactAux_short : ∀ (cs : List (List Nat)) (n : Nat) (acc buf : List Nat),
    (acc ++ buf ++ cs.flatten).length < n →
    readExactAux n acc buf cs
      = (if acc ++ buf ++ cs.flatten = [] then none else some (acc ++ buf ++ cs.flatten),
         ⟨[], []⟩) := by
  intro cs
  induction cs with
  | nil =>
    intro n acc buf h
    rw [readExactAux, if_neg (by simp at h ⊢; omega)]
    simp
  | cons c cs ih =>
    intro n acc buf h
    rw [readExactAux, if_neg (by simp at h ⊢; omega)]
    rw [ih n (acc ++ buf) c (by simp at h ⊢; omega)]
    simp [List.append_assoc]

lemma readExactAux_none : ∀ (cs : List (List Nat)) (n : Nat) (acc buf : List Nat)
    (r' : SizedReaderState),
    readExactAux n acc buf cs = (none, r') → acc ++ buf ++ cs.flatten = [] := by
  intro cs
  induction cs with
  | nil =>
    intro n acc buf r' h
    rw [readExactAux] at h
    by_cases hif : n ≤ acc.length + buf.length
    · rw [if_pos hif] at h
      simp at h
    · rw [if_neg hif] at h
      by_cases hnil : acc ++ buf = []
      · simp [hnil]
      · rw [if_neg hnil] at h
        simp at h
  | cons c cs ih =>
    intro n acc buf r' h
    rw [readExactAux] at h
    by_cases hif : n ≤ acc.length + buf.length
    · rw [if_pos hif] at h
      simp at h
    · rw [if_neg hif] at h
      have := ih n (acc ++ buf) c r' h
      simp at this ⊢
      tauto

lemma readExactAux_some : ∀ (cs : List (List Nat)) (n : Nat) (acc buf v : List Nat)
    (r' : SizedReaderState), acc.length ≤ n →
    readExactAux n acc buf cs = (some v, r') →
    v = (acc ++ buf ++ cs.flatten).take n
      ∧ flatOf r' = (acc ++ buf ++ cs.flatten).drop n := by
  intro cs
  induction cs with
  | nil =>
    intro n acc buf v r' hacc h
    rw [readExactAux] at h
    by_cases hif : n ≤ acc.length + buf.length
    · rw [if_pos hif] at h
      obtain ⟨hv, hr⟩ := Prod.mk.injEq .. ▸ h
      injection hv with hv
      subst hv
      subst hr
      constructor
      · rw [List.flatten_nil, List.append_nil, List.take_append_eq_append_take,
          List.take_of_length_le hacc]
      · simp only [flatOf, List.flatten_nil, List.append_nil]
        rw [List.drop_append_eq_append_drop, List.drop_eq_nil_of_le hacc,
          List.nil_append]
    · rw [if_neg hif] at h
      by_cases hnil : acc ++ buf = []
      · rw [if_pos hnil] at h
        simp at h
      · rw [if_neg hnil] at h
        obtain ⟨hv, hr⟩ := Prod.mk.injEq .. ▸ h
        injection hv with hv
        subst hv
        subst hr
        constructor
        · rw [List.flatten_nil, List.append_nil,
            List.take_of_length_le (by simp at hif ⊢; omega)]
        · simp only [flatOf, List.flatten_nil, List.append_nil]
          rw [List.drop_eq_nil_of_le (by simp at hif ⊢; omega)]
  | cons c cs ih =>
    intro n acc buf v r' hacc h
    rw [readExactAux] at h
    by_cases hif : n ≤ acc.length + buf.length
    · rw [if_pos hif] at h
      obtain ⟨hv, hr⟩ := Prod.mk.injEq .. ▸ h
      injection hv with hv
      subst hv
      subst hr
      have hlen : n ≤ (acc ++ buf).length := by simp; omega
      constructor
      · rw [List.take_append_eq_append_take,
          show n - (acc ++ buf).length = 0 by omega, List.take_zero, List.append_nil,
          List.take_append_eq_append_take, List.take_of_length_le hacc]
      · simp only [flatOf]
        rw [List.drop_append_eq_append_drop,
          show n - (acc ++ buf).length = 0 by omega, List.drop_zero,
          List.drop_append_eq_append_drop, List.drop_eq_nil_of_le hacc,
          List.nil_append]
    · rw [if_neg hif] at h
      have := ih n (acc ++ buf) c v r' (by simp at hif ⊢; omega) h
      simpa [List.append_assoc] using this

lemma readExact_done (r : SizedReaderState) (n : Nat) (hn : 0 < n)
    (h : flatOf r = []) : readExact n r = (none, ⟨[], []⟩) := by
  rw [readExact, readExactAux_short r.chunks n [] r.buf
    (by simp only [List.nil_append]; rw [show r.buf ++ r.chunks.flatten = flatOf r from rfl, h]; simpa using hn)]
  rw [if_pos (by simpa [flatOf] using h)]

lemma readExact_eval (r : SizedReaderState) (n : Nat) (h : flatOf r ≠ []) :
    ∃ r', readExact n r = (some ((flatOf r).take n), r')
      ∧ flatOf r' = (flatOf r).drop n := by
  cases hread : readExact n r with
  | mk o r' =>
    cases o with
    | none =>
      have := readExactAux_none r.chunks n [] r.buf r' hread
      exact absurd (by simpa [flatOf] using this) h
    | some v =>
      have := readExactAux_some r.chunks n [] r.buf v r' (by simp) hread
      refine ⟨r', ?_, by simpa [flatOf] using this.2⟩
      have hv : v = (flatOf r).take n := by simpa [flatOf] using this.1
      rw [hv]

lemma pendingChunks_flatten (r : SizedReaderState) :
    (pendingChunks r).flatten = flatOf r := by
  rcases r with ⟨buf, cs⟩
  cases buf <;> simp [pendingChunks, flatOf]

/-- C3.  Password round trip: for every plaintext, password, PBKDF2 options
with `keyBits` in `{128, 256}`, and every value of the 8-byte random salt,
decrypting the output of `aesCtrEncryptWithPbkdf2` (16-byte `Salted__` +
salt header followed by ciphertext) with `aesCtrDecryptWithPbkdf2` under the
same password and options recovers exactly the plaintext, because the
decryptor re-derives the same key and iv from the salt it reads back out of
bytes `[8..16)` of the stream. -/
theorem password_round_trip (AES : List Nat → List Nat → List Nat)
    (kdf : String → List Nat → Nat → String → Nat → List Nat)
    (password : String) (opts : Pbkdf2Options) (salt : List Nat)
    (cs : List (List Nat))
    (hF : ∀ k c, (AES k c).length = 16)
    (hkb : opts.keyBits = 128 ∨ opts.keyBits = 256)
    (hsalt : salt.length = 8) :
    ∃ out, aesCtrEncryptWithPbkdf2 AES kdf password opts salt cs = some out
      ∧ ∃ res, aesCtrDecryptWithPbkdf2 AES kdf password opts out = Except.ok res
        ∧ res.flatten = cs.flatten := by
  obtain ⟨key, iv, hder⟩ :
      ∃ key iv, deriveKeyAndIvByPbkdf2 kdf salt password opts = some (key, iv) := by
    refine ⟨(kdf password salt opts.iterations opts.hash (opts.keyBits + 128)).take (opts.keyBits / 8),
      (kdf password salt opts.iterations opts.hash (opts.keyBits + 128)).drop (opts.keyBits / 8), ?_⟩
    rw [deriveKeyAndIvByPbkdf2, if_pos hkb]
  refine ⟨(magicBytes ++ salt) :: aesCtrEncrypt AES key iv cs, ?_, ?_⟩
  · rw [aesCtrEncryptWithPbkdf2, hder]
  · set out := (magicBytes ++ salt) :: aesCtrEncrypt AES key iv cs with hout
    have hflat0 : flatOf ⟨[], out⟩
        = magicBytes ++ (salt ++ (aesCtrEncrypt AES key iv cs).flatten) := by
      simp [flatOf, hout, List.append_assoc]
    have hne0 : flatOf ⟨[], out⟩ ≠ [] := by
      rw [hflat0]
      simp [magicBytes]
    obtain ⟨r1, hr1, hf1⟩ := readExact_eval ⟨[], out⟩ 8 hne0
    have htake1 : (flatOf ⟨[], out⟩).take 8 = magicBytes := by
      rw [hflat0, show (8 : Nat) = magicBytes.length from rfl, List.take_left]
    have hf1' : flatOf r1 = salt ++ (aesCtrEncrypt AES key iv cs).flatten := by
      rw [hf1, hflat0, show (8 : Nat) = magicBytes.length from rfl, List.drop_left]
    have hne1 : flatOf r1 ≠ [] := by
      rw [hf1']
      intro hc
      have := congrArg List.length hc
      simp [hsalt] at this
    obtain ⟨r2, hr2, hf2⟩ := readExact_eval r1 8 hne1
    have htake2 : (flatOf r1).take 8 = salt := by
      rw [hf1', ← hsalt, List.take_left]
    have hf2' : flatOf r2 = (aesCtrEncrypt AES key iv cs).flatten := by
      rw [hf2, hf1', ← hsalt, List.drop_left]
    simp only [aesCtrDecryptWithPbkdf2, hr1, htake1, hr2, htake2, hder,
      show magicBytes.length = 8 from rfl, hsalt]
    refine ⟨aesCtrDecrypt AES key iv (pendingChunks r2), rfl, ?_⟩
    rw [aesCtrDecrypt_flatten AES key iv _ (hF key), pendingChunks_flatten, hf2',
      aesCtrEncrypt_flatten AES key iv cs (hF key)]
    exact ctrRef_involution (AES key) iv cs.flatten (hF key)

theorem password_round_trip_witness :
    ∃ out, aesCtrEncryptWithPbkdf2 (fun _ _ => List.replicate 16 0)
        (fun _ _ _ _ n => List.replicate (n / 8) 0) "pw" ⟨128, 1000, "SHA-256"⟩
        (List.replicate 8 1) [[5, 6, 7]] = some out
      ∧ ∃ res, aesCtrDecryptWithPbkdf2 (fun _ _ => List.replicate 16 0)
          (fun _ _ _ _ n => List.replicate (n / 8) 0) "pw" ⟨128, 1000, "SHA-256"⟩ out
          = Except.ok res
        ∧ res.flatten = ([[5, 6, 7]] : List (List Nat)).flatten :=
  password_round_trip (fun _ _ => List.replicate 16 0)
    (fun _ _ _ _ n => List.replicate (n / 8) 0) "pw" ⟨128, 1000, "SHA-256"⟩
    (List.replicate 8 1) [[5, 6, 7]] (fun _ _ => rfl) (Or.inl rfl) (by decide)

/-- C4 counterexample: a 17-byte input stream whose first 8 bytes are all
zero — not the ASCII magic `Salted__` — is nevertheless decrypted
successfully by `aesCtrDecryptWithPbkdf2` (with a zero-keystream cipher and
zero-output PBKDF2 for concreteness), yielding `Except.ok [[1]]` instead of
the framing error the claim requires. -/
theorem magic_mismatch_accepted :
    (List.replicate 16 0 ++ [1]).take 8 ≠ magicBytes
    ∧ aesCtrDecryptWithPbkdf2 (fun _ _ => List.replicate 16 0)
        (fun _ _ _ _ n => List.replicate (n / 8) 0) "pw" ⟨128, 1000, "SHA-256"⟩
        [List.replicate 16 0 ++ [1]] = Except.ok [[1]] :=
  ⟨by decide, by rfl⟩

/-- C4 (amended).  The header decoder of `aesCtrDecryptWithPbkdf2` reads
exactly 8 bytes and requires only that the read returned exactly 8 bytes —
it never compares them with the ASCII magic `Salted__` — then reads the
8-byte salt the same way: every input stream of at least 16 bytes (under
valid `keyBits`) is accepted and decrypted, whatever its first 8 bytes. -/
theorem header_reads_without_magic_check (AES : List Nat → List Nat → List Nat)
    (kdf : String → List Nat → Nat → String → Nat → List Nat)
    (password : String) (opts : Pbkdf2Options) (cs : List (List Nat))
    (hkb : opts.keyBits = 128 ∨ opts.keyBits = 256)
    (hlen : 16 ≤ cs.flatten.length) :
    ∃ res, aesCtrDecryptWithPbkdf2 AES kdf password opts cs = Except.ok res := by
  have hne0 : flatOf ⟨[], cs⟩ ≠ [] := by
    simp only [flatOf, List.nil_append]
    intro hc
    rw [hc] at hlen
    simp at hlen
  obtain ⟨r1, hr1, hf1⟩ := readExact_eval ⟨[], cs⟩ 8 hne0
  have htl1 : ((flatOf ⟨[], cs⟩).take 8).length = 8 := by
    rw [List.length_take]
    simp only [flatOf, List.nil_append]
    omega
  have hne1 : flatOf r1 ≠ [] := by
    rw [hf1]
    intro hc
    rw [List.drop_eq_nil_iff] at hc
    simp only [flatOf, List.nil_append] at hc
    omega
  obtain ⟨r2, hr2, hf2⟩ := readExact_eval r1 8 hne1
  have htl2 : ((flatOf r1).take 8).length = 8 := by
    rw [List.length_take, hf1, List.length_drop]
    simp only [flatOf, List.nil_append]
    omega
  obtain ⟨key, iv, hder⟩ : ∃ key iv,
      deriveKeyAndIvByPbkdf2 kdf ((flatOf r1).take 8) password opts = some (key, iv) := by
    refine ⟨(kdf password ((flatOf r1).take 8) opts.iterations opts.hash (opts.keyBits + 128)).take (opts.keyBits / 8),
      (kdf password ((flatOf r1).take 8) opts.iterations opts.hash (opts.keyBits + 128)).drop (opts.keyBits / 8), ?_⟩
    rw [deriveKeyAndIvByPbkdf2, if_pos hkb]
  refine ⟨aesCtrDecrypt AES key iv (pendingChunks r2), ?_⟩
  simp [aesCtrDecryptWithPbkdf2, hr1, htl1, hr2, htl2, hder]

theorem header_reads_without_magic_check_witness :
    ∃ res, aesCtrDecryptWithPbkdf2 (fun _ _ => List.replicate 16 0)
        (fun _ _ _ _ n => List.replicate (n / 8) 0) "pw" ⟨256, 1000, "SHA-256"⟩
        [[9, 9, 9, 9, 9, 9, 9, 9], List.replicate 8 2, [4, 5]] = Except.ok res :=
  header_reads_without_magic_check (fun _ _ => List.replicate 16 0)
    (fun _ _ _ _ n => List.replicate (n / 8) 0) "pw" ⟨256, 1000, "SHA-256"⟩
    [[9, 9, 9, 9, 9, 9, 9, 9], List.replicate 8 2, [4, 5]] (Or.inr rfl) (by decide)

/-- C8.  Malformed short header: for every input stream of total length
strictly less than 16 bytes, `aesCtrDecryptWithPbkdf2` fails with a fatal
framing error — either the 8-byte magic read or the 8-byte salt read comes
back short or done, which throws — and no plaintext is produced. -/
theorem short_header_fails (AES : List Nat → List Nat → List Nat)
    (kdf : String → List Nat → Nat → String → Nat → List Nat)
    (password : String) (opts : Pbkdf2Options) (cs : List (List Nat))
    (hlen : cs.flatten.length < 16) :
    ∃ e, aesCtrDecryptWithPbkdf2 AES kdf password opts cs = Except.error e := by
  by_cases h0 : cs.flatten.length = 0
  · have hdone := readExact_done ⟨[], cs⟩ 8 (by norm_num)
      (by simp only [flatOf, List.nil_append]; exact List.length_eq_zero.mp h0)
    refine ⟨"unexpected done", ?_⟩
    simp [aesCtrDecryptWithPbkdf2, hdone]
  · have hne0 : flatOf ⟨[], cs⟩ ≠ [] := by
      simp only [flatOf, List.nil_append]
      intro hc
      rw [hc] at h0
      simp at h0
    obtain ⟨r1, hr1, hf1⟩ := readExact_eval ⟨[], cs⟩ 8 hne0
    by_cases h8 : cs.flatten.length < 8
    · have htl1 : ((flatOf ⟨[], cs⟩).take 8).length ≠ 8 := by
        rw [List.length_take]
        simp only [flatOf, List.nil_append]
        omega
      refine ⟨"unexpected length", ?_⟩
      simp [aesCtrDecryptWithPbkdf2, hr1, htl1]
      intro hcontra
      simp only [flatOf, List.nil_append] at hcontra
      omega
    · have htl1 : ((flatOf ⟨[], cs⟩).take 8).length = 8 := by
        rw [List.length_take]
        simp only [flatOf, List.nil_append]
        omega
      by_cases h82 : cs.flatten.length = 8
      · have hempty : flatOf r1 = [] := by
          rw [hf1]
          apply List.drop_eq_nil_of_le
          simp only [flatOf, List.nil_append]
          omega
        have hdone := readExact_done r1 8 (by norm_num) hempty
        refine ⟨"unexpected done", ?_⟩
        simp [aesCtrDecryptWithPbkdf2, hr1, htl1, hdone]
      · have hne1 : flatOf r1 ≠ [] := by
          rw [hf1]
          intro hc
          rw [List.drop_eq_nil_iff] at hc
          simp only [flatOf, List.nil_append] at hc
          omega
        obtain ⟨r2, hr2, hf2⟩ := readExact_eval r1 8 hne1
        have htl2 : ((flatOf r1).take 8).length ≠ 8 := by
          rw [List.length_take, hf1, List.length_drop]
          simp only [flatOf, List.nil_append]
          omega
        refine ⟨"unexpected length", ?_⟩
        simp [aesCtrDecryptWithPbkdf2, hr1, htl1, hr2, htl2]
        intro hcontra
        rw [hf1, List.length_drop] at hcontra
        simp only [flatOf, List.nil_append] at hcontra
        omega

theorem short_header_fails_witness :
    ∃ e, aesCtrDecryptWithPbkdf2 (fun _ _ => List.replicate 16 0)
        (fun _ _ _ _ n => List.replicate (n / 8) 0) "pw" ⟨128, 1000, "SHA-256"⟩
        [[1, 2, 3], [4, 5, 6, 7, 8, 9]] = Except.error e :=
  short_header_fails (fun _ _ => List.replicate 16 0)
    (fun _ _ _ _ n => List.replicate (n / 8) 0) "pw" ⟨128, 1000, "SHA-256"⟩
    [[1, 2, 3], [4, 5, 6, 7, 8, 9]] (by decide)

/-- C9.  `keyBits` fail-fast: for every `keyBits` outside `{128, 256}`, key
derivation fails (the TypeScript union type `128 | 256` rejects the call
before it runs, modelled as `none`), the password-path encrypt produces
nothing, and the password-path decrypt never produces plaintext; with
`keyBits` in `{128, 256}` the derivation requests exactly `keyBits + 128`
bits and splits them into a `keyBits / 8`-byte key and a 16-byte iv. -/
theorem keyBits_fail_fast (AES : List Nat → List Nat → List Nat)
    (kdf : String → List Nat → Nat → String → Nat → List Nat)
    (password : String) (opts : Pbkdf2Options) (salt : List Nat)
    (cs : List (List Nat))
    (hkdf : ∀ pw s it h n, (kdf pw s it h n).length = n / 8) :
    (¬(opts.keyBits = 128 ∨ opts.keyBits = 256) →
      deriveKeyAndIvByPbkdf2 kdf salt password opts = none
      ∧ aesCtrEncryptWithPbkdf2 AES kdf password opts salt cs = none
      ∧ ∀ res, aesCtrDecryptWithPbkdf2 AES kdf password opts cs ≠ Except.ok res)
    ∧ ((opts.keyBits = 128 ∨ opts.keyBits = 256) →
      ∃ key iv, deriveKeyAndIvByPbkdf2 kdf salt password opts = some (key, iv)
        ∧ key.length = opts.keyBits / 8 ∧ iv.length = 16) := by
  constructor
  · intro hkb
    have hnone : ∀ s, deriveKeyAndIvByPbkdf2 kdf s password opts = none := fun s => by
      rw [deriveKeyAndIvByPbkdf2, if_neg hkb]
    refine ⟨hnone salt, ?_, ?_⟩
    · rw [aesCtrEncryptWithPbkdf2, hnone salt]
    · intro res hok
      rw [aesCtrDecryptWithPbkdf2] at hok
      simp only [hnone] at hok
      split at hok
      · exact Except.noConfusion hok
      · split at hok
        · exact Except.noConfusion hok
        · split at hok
          · exact Except.noConfusion hok
          · split at hok
            · exact Except.noConfusion hok
            · exact Except.noConfusion hok
  · intro hkb
    refine ⟨(kdf password salt opts.iterations opts.hash (opts.keyBits + 128)).take (opts.keyBits / 8),
      (kdf password salt opts.iterations opts.hash (opts.keyBits + 128)).drop (opts.keyBits / 8),
      by rw [deriveKeyAndIvByPbkdf2, if_pos hkb], ?_, ?_⟩
    · rw [List.length_take, hkdf]
      rcases hkb with h | h <;> rw [h] <;> norm_num
    · rw [List.length_drop, hkdf]
      rcases hkb with h | h <;> rw [h] <;> norm_num

theorem keyBits_fail_fast_witness :
    (¬((100 : Nat) = 128 ∨ (100 : Nat) = 256) →
      deriveKeyAndIvByPbkdf2 (fun _ _ _ _ n => List.replicate (n / 8) 0)
        (List.replicate 8 0) "pw" ⟨100, 1000, "SHA-256"⟩ = none
      ∧ aesCtrEncryptWithPbkdf2 (fun _ _ => List.replicate 16 0)
          (fun _ _ _ _ n => List.replicate (n / 8) 0) "pw" ⟨100, 1000, "SHA-256"⟩
          (List.replicate 8 0) [[1]] = none
      ∧ ∀ res, aesCtrDecryptWithPbkdf2 (fun _ _ => List.replicate 16 0)
          (fun _ _ _ _ n => List.replicate (n / 8) 0) "pw" ⟨100, 1000, "SHA-256"⟩ [[1]]
          ≠ Except.ok res)
    ∧ (((100 : Nat) = 128 ∨ (100 : Nat) = 256) →
      ∃ key iv, deriveKeyAndIvByPbkdf2 (fun _ _ _ _ n => List.replicate (n / 8) 0)
          (List.replicate 8 0) "pw" ⟨100, 1000, "SHA-256"⟩ = some (key, iv)
        ∧ key.length = (100 : Nat) / 8 ∧ iv.length = 16) :=
  keyBits_fail_fast (fun _ _ => List.replicate 16 0)
    (fun _ _ _ _ n => List.replicate (n / 8) 0) "pw" ⟨100, 1000, "SHA-256"⟩
    (List.replicate 8 0) [[1]] (fun _ _ _ _ _ => by simp)
